import Mathlib

/-
Verification of the d4-framefile RandFile core (src/d4-framefile/src/randfile.rs).

The backing stream is modelled with the semantics of a Rust Cursor over a byte
vector: a data list together with a position.  Bytes are modelled as natural
numbers; the code never computes with byte values, it only moves them around.
The shared state IoWrapper carries the stream, the current generation token and
the token stack of (outstanding_count, release_callback) pairs; callbacks are
modelled as opaque labels of a type parameter.  Each RandFile handle is a token
into that stack, so the handle methods below take the token as an argument.
-/

namespace RandFile

/-- Backing stream with Cursor semantics: byte list plus seek position. -/
structure Cursor where
  data : List Nat
  pos : Nat
deriving DecidableEq

/-- Errors the modelled operations can produce: the generation-mismatch error
(the Rust code builds io errors with message Rand file locked), and the Cursor
error for seeking to a negative position. -/
inductive RFError where
  | locked
  | invalidSeek
deriving DecidableEq

/-- Seek relative to the end with offset 0: position becomes the data length,
which is also returned. -/
def seekEnd (st : Cursor) : Nat × Cursor :=
  (st.data.length, { st with pos := st.data.length })

/-- Seek to an absolute address; always succeeds for unsigned addresses. -/
def seekStart (st : Cursor) (addr : Nat) : Cursor :=
  { st with pos := addr }

/-- Seek relative to the current position.  A negative resulting position is an
error, as in the Rust Cursor. -/
def seekCurrent (st : Cursor) (off : Int) : Except RFError Cursor :=
  if (st.pos : Int) + off < 0 then Except.error RFError.invalidSeek
  else Except.ok { st with pos := ((st.pos : Int) + off).toNat }

/-- Write a buffer at the current position, zero-filling any gap past the end
of the data, as the Rust Cursor over a byte vector does. -/
def writeAll (st : Cursor) (buf : List Nat) : Cursor :=
  let padded := st.data ++ List.replicate (st.pos - st.data.length) 0
  { data := padded.take st.pos ++ buf ++ padded.drop (st.pos + buf.length),
    pos := st.pos + buf.length }

/-- One read call: yields min of the requested count and the bytes available
after the current position, advancing the position accordingly. -/
def readOnce (st : Cursor) (n : Nat) : List Nat × Cursor :=
  let k := min n (st.data.length - st.pos)
  ((st.data.drop st.pos).take k, { st with pos := st.pos + k })

/-- The shared state behind the mutex: the stream, the current generation and
the stack of (outstanding_count, callback) entries. -/
structure IoWrapper (α : Type) where
  inner : Cursor
  current_token : Nat
  token_stack : List (Nat × α)
deriving DecidableEq

variable {α : Type}

/-- IoWrapper try_borrow_mut: grants stream access only to the handle whose
token equals the current token. -/
def try_borrow_mut (s : IoWrapper α) (token : Nat) : Except RFError Unit :=
  if token = s.current_token then Except.ok () else Except.error RFError.locked

/-- RandFile new: fresh shared state at generation 0, one outstanding handle,
with the no-op base callback label. -/
def newRandFile (st : Cursor) (noop : α) : IoWrapper α :=
  { inner := st, current_token := 0, token_stack := [(1, noop)] }

/-- RandFile lock: advance the current token, push a fresh entry with count 1
and the given callback; the returned token is the new current token. -/
def lock (s : IoWrapper α) (cb : α) : Nat × IoWrapper α :=
  (s.current_token + 1,
   { s with current_token := s.current_token + 1,
            token_stack := s.token_stack ++ [(1, cb)] })

/-- In-place update of the count of the stack entry at an index, leaving the
callback unchanged; out-of-range indices leave the stack unchanged. -/
def modifyCount : List (Nat × α) → Nat → (Nat → Nat) → List (Nat × α)
  | [], _, _ => []
  | e :: l, 0, f => (f e.1, e.2) :: l
  | e :: l, i + 1, f => e :: modifyCount l i f

/-- Clone for RandFile: increment the outstanding count of the entry at the
token of the cloned handle. -/
def cloneHandle (s : IoWrapper α) (token : Nat) : IoWrapper α :=
  { s with token_stack := modifyCount s.token_stack token (fun c => c + 1) }

/-- The pop cascade of Drop for RandFile: while the current token is positive
and the entry at the current token has count 0, decrement the current token and
pop the entry, collecting callbacks in pop order. -/
def popLoop [Inhabited α] : Nat → List (Nat × α) → Nat × List (Nat × α) × List α
  | 0, stack => (0, stack, [])
  | n + 1, stack =>
    if (stack.getD (n + 1) default).1 = 0 then
      match stack.getLast? with
      | some e =>
        let r := popLoop n stack.dropLast
        (r.1, r.2.1, e.2 :: r.2.2)
      | none => popLoop n stack
    else (n + 1, stack, [])

/-- Drop for RandFile: saturating decrement of the count at the handle token,
then the pop cascade; returns the new state together with the callbacks to be
invoked, in pop order, after the mutex is released. -/
def dropHandle [Inhabited α] (s : IoWrapper α) (token : Nat) : IoWrapper α × List α :=
  let st1 :=
    if 0 < (s.token_stack.getD token default).1 then
      modifyCount s.token_stack token (fun c => c - 1)
    else s.token_stack
  let r := popLoop s.current_token st1
  ({ s with current_token := r.1, token_stack := r.2.1 }, r.2.2)

/-- RandFile append_block: borrow, seek to the end recording the address,
borrow again, write the whole buffer; returns the recorded address. -/
def append_block (s : IoWrapper α) (token : Nat) (buf : List Nat) :
    Except RFError Nat × IoWrapper α :=
  match try_borrow_mut s token with
  | Except.error e => (Except.error e, s)
  | Except.ok _ =>
    let r := seekEnd s.inner
    match try_borrow_mut s token with
    | Except.error e => (Except.error e, { s with inner := r.2 })
    | Except.ok _ => (Except.ok r.1, { s with inner := writeAll r.2 buf })

/-- RandFile update_block: borrow, seek to the offset, borrow again, write the
whole buffer. -/
def update_block (s : IoWrapper α) (token : Nat) (offset : Nat) (buf : List Nat) :
    Except RFError Unit × IoWrapper α :=
  match try_borrow_mut s token with
  | Except.error e => (Except.error e, s)
  | Except.ok _ =>
    let st1 := seekStart s.inner offset
    match try_borrow_mut s token with
    | Except.error e => (Except.error e, { s with inner := st1 })
    | Except.ok _ => (Except.ok (), { s with inner := writeAll st1 buf })

/-- RandFile reserve_block: borrow, seek to the end recording the address,
borrow, seek forward by size minus one, borrow, write one zero byte; returns
the recorded address. -/
def reserve_block (s : IoWrapper α) (token : Nat) (sz : Nat) :
    Except RFError Nat × IoWrapper α :=
  match try_borrow_mut s token with
  | Except.error e => (Except.error e, s)
  | Except.ok _ =>
    let r := seekEnd s.inner
    match try_borrow_mut s token with
    | Except.error e => (Except.error e, { s with inner := r.2 })
    | Except.ok _ =>
      match seekCurrent r.2 ((sz : Int) - 1) with
      | Except.error e => (Except.error e, { s with inner := r.2 })
      | Except.ok st2 =>
        match try_borrow_mut s token with
        | Except.error e => (Except.error e, { s with inner := st2 })
        | Except.ok _ => (Except.ok r.1, { s with inner := writeAll st2 [0] })

/-- RandFile size: borrow and seek to the end, returning the length. -/
def size (s : IoWrapper α) (token : Nat) : Except RFError Nat × IoWrapper α :=
  match try_borrow_mut s token with
  | Except.error e => (Except.error e, s)
  | Except.ok _ =>
    let r := seekEnd s.inner
    (Except.ok r.1, { s with inner := r.2 })

/-- The read loop of read_block: repeatedly borrow and read into the unfilled
part of the buffer until a read returns zero bytes; returns the fill count,
the final buffer and the final stream.  The fuel only bounds the recursion;
read_block passes one more than the buffer length, which the proofs show is
never exhausted because every continuing iteration fills at least one byte. -/
def readLoop (ct token : Nat) :
    Nat → Cursor → List Nat → Nat → Except RFError Nat × List Nat × Cursor
  | 0, st, buf, ret => (Except.ok ret, buf, st)
  | fuel + 1, st, buf, ret =>
    if token = ct then
      let r := readOnce st (buf.length - ret)
      if r.1.length = 0 then (Except.ok ret, buf, r.2)
      else
        readLoop ct token fuel r.2
          (buf.take ret ++ r.1 ++ buf.drop (ret + r.1.length)) (ret + r.1.length)
    else (Except.error RFError.locked, buf, st)

/-- RandFile read_block: borrow, seek to the address, then run the read loop
from fill count 0. -/
def read_block (s : IoWrapper α) (token : Nat) (addr : Nat) (buf : List Nat) :
    Except RFError Nat × List Nat × IoWrapper α :=
  match try_borrow_mut s token with
  | Except.error e => (Except.error e, buf, s)
  | Except.ok _ =>
    let st1 := seekStart s.inner addr
    let r := readLoop s.current_token token (buf.length + 1) st1 buf 0
    (r.1, r.2.1, { s with inner := r.2.2 })

/-- Drop a handle with the given token n times, concatenating the callback
lists fired by each drop, in firing order. -/
def dropN [Inhabited α] (s : IoWrapper α) (token : Nat) : Nat → IoWrapper α × List α
  | 0 => (s, [])
  | n + 1 =>
    let r := dropHandle s token
    let r2 := dropN r.1 token n
    (r2.1, r.2 ++ r2.2)

/-- Clone a handle with the given token n times. -/
def cloneN (s : IoWrapper α) (token : Nat) : Nat → IoWrapper α
  | 0 => s
  | n + 1 => cloneN (cloneHandle s token) token n

/-- Run a sequence of handle drops, one token per list element, concatenating
the fired callbacks in firing order. -/
def runDrops [Inhabited α] (s : IoWrapper α) : List Nat → IoWrapper α × List α
  | [] => (s, [])
  | t :: ts =>
    let r := dropHandle s t
    let r2 := runDrops r.1 ts
    (r2.1, r.2 ++ r2.2)

/-- Nest k leases: the j-th lock registers the callback labelled j. -/
def lockN (s : IoWrapper α) (cb : Nat → α) : Nat → IoWrapper α
  | 0 => s
  | j + 1 => (lock (lockN s cb j) (cb (j + 1))).2

/-- Run a sequence of handle clones, one token per list element. -/
def cloneSeq (s : IoWrapper α) : List Nat → IoWrapper α
  | [] => s
  | t :: ts => cloneSeq (cloneHandle s t) ts

/-- A block-writing call: append a buffer or reserve a number of bytes. -/
inductive BlockOp where
  | append (buf : List Nat)
  | reserve (n : Nat)
deriving DecidableEq

/-- The number of stream bytes a block-writing call accounts for. -/
def opSize : BlockOp → Nat
  | BlockOp.append buf => buf.length
  | BlockOp.reserve n => n

/-- The bytes a block-writing call leaves in the stream: the appended buffer,
or that many zero bytes for a reservation. -/
def opImage : BlockOp → List Nat
  | BlockOp.append buf => buf
  | BlockOp.reserve n => List.replicate n 0

/-- Concatenated images of a sequence of block-writing calls. -/
def opImages : List BlockOp → List Nat
  | [] => []
  | op :: l => opImage op ++ opImages l

/-- Sum of the sizes of a sequence of block-writing calls. -/
def sumSizes : List BlockOp → Nat
  | [] => 0
  | op :: l => opSize op + sumSizes l

/-- Execute a sequence of block-writing calls with one handle token. -/
def runOps (s : IoWrapper α) (token : Nat) : List BlockOp → IoWrapper α
  | [] => s
  | BlockOp.append buf :: ops => runOps (append_block s token buf).2 token ops
  | BlockOp.reserve n :: ops => runOps (reserve_block s token n).2 token ops

/-- Number of occurrences of a token in a list of tokens. -/
def countTok (g : Nat) : List Nat → Nat
  | [] => 0
  | t :: ts => (if t = g then 1 else 0) + countTok g ts

/-- The token stack holding generations 0 through m, with counts given by a
count function and callbacks by a labelling function. -/
def genStack (ρ : Nat → Nat) (cb : Nat → α) : Nat → List (Nat × α)
  | 0 => [(ρ 0, cb 0)]
  | m + 1 => genStack ρ cb m ++ [(ρ (m + 1), cb (m + 1))]

/-- The largest generation index in 1..m with a nonzero count, or 0. -/
def maxAlive (ρ : Nat → Nat) : Nat → Nat
  | 0 => 0
  | g + 1 => if ρ (g + 1) = 0 then maxAlive ρ g else g + 1

/-- The descending list hi, hi-1, ..., lo+1 (empty when hi is at most lo). -/
def descRange : Nat → Nat → List Nat
  | 0, _ => []
  | hi + 1, lo => if hi + 1 ≤ lo then [] else (hi + 1) :: descRange hi lo

/-- States of the shared lease bookkeeping reachable from a fresh RandFile by
handle construction, cloning, locking and dropping. -/
inductive Reachable [Inhabited α] (noop : α) : IoWrapper α → Prop
  | ofNew (st : Cursor) : Reachable noop (newRandFile st noop)
  | ofLock (s : IoWrapper α) (cb : α) : Reachable noop s → Reachable noop (lock s cb).2
  | ofClone (s : IoWrapper α) (t : Nat) : Reachable noop s → Reachable noop (cloneHandle s t)
  | ofDrop (s : IoWrapper α) (t : Nat) : Reachable noop s → Reachable noop (dropHandle s t).1

/-- A handle whose token is not the current token gets the locked error from
every block operation, with the shared state returned unchanged. -/
theorem blockOps_locked (s : IoWrapper α) (token : Nat) (h : token ≠ s.current_token)
    (buf buf2 : List Nat) (addr off sz : Nat) :
    append_block s token buf = (Except.error RFError.locked, s)
    ∧ update_block s token off buf = (Except.error RFError.locked, s)
    ∧ reserve_block s token sz = (Except.error RFError.locked, s)
    ∧ size s token = (Except.error RFError.locked, s)
    ∧ read_block s token addr buf2 = (Except.error RFError.locked, buf2, s) := by
  simp [append_block, update_block, reserve_block, size, read_block, try_borrow_mut, h]

/-- The read loop stops at once when the buffer is already full or the stream
has no bytes left after the current position. -/
theorem readLoop_stop (ct fuel ret : Nat) (st : Cursor) (buf : List Nat)
    (h : min (buf.length - ret) (st.data.length - st.pos) = 0) :
    readLoop ct ct (fuel + 1) st buf ret = (Except.ok ret, buf, st) := by
  simp [readLoop, readOnce, h]

/-- One-step unfolding of the read loop at positive fuel. -/
theorem readLoop_succ (ct token fuel : Nat) (st : Cursor) (buf : List Nat) (ret : Nat) :
    readLoop ct token (fuel + 1) st buf ret
      = if token = ct then
          if (readOnce st (buf.length - ret)).1.length = 0 then
            (Except.ok ret, buf, (readOnce st (buf.length - ret)).2)
          else
            readLoop ct token fuel (readOnce st (buf.length - ret)).2
              (buf.take ret ++ (readOnce st (buf.length - ret)).1
                ++ buf.drop (ret + (readOnce st (buf.length - ret)).1.length))
              (ret + (readOnce st (buf.length - ret)).1.length)
        else (Except.error RFError.locked, buf, st) := rfl

/-- Full characterization of the read loop as read_block enters it: it fills
min of the buffer length and the bytes available at the address. -/
theorem readLoop_full (ct : Nat) (data : List Nat) (addr : Nat) (buf : List Nat) :
    readLoop ct ct (buf.length + 1) ⟨data, addr⟩ buf 0
      = (Except.ok (min buf.length (data.length - addr)),
         (data.drop addr).take (min buf.length (data.length - addr))
           ++ buf.drop (min buf.length (data.length - addr)),
         ⟨data, addr + min buf.length (data.length - addr)⟩) := by
  by_cases hk : min buf.length (data.length - addr) = 0
  · rw [readLoop_stop ct buf.length 0 ⟨data, addr⟩ buf (by simpa using hk)]
    simp [hk]
  · have hkL : min buf.length (data.length - addr) ≤ buf.length := min_le_left _ _
    have hkA : min buf.length (data.length - addr) ≤ data.length - addr := min_le_right _ _
    obtain ⟨l, hl⟩ : ∃ l, buf.length + 1 = (l + 1) + 1 := ⟨buf.length - 1, by omega⟩
    rw [hl, readLoop_succ, if_pos rfl]
    have hro : readOnce ⟨data, addr⟩ (buf.length - 0)
        = ((data.drop addr).take (min buf.length (data.length - addr)),
           ⟨data, addr + min buf.length (data.length - addr)⟩) := by
      simp [readOnce]
    rw [hro]
    have hlen : ((data.drop addr).take (min buf.length (data.length - addr))).length
        = min buf.length (data.length - addr) := by
      rw [List.length_take, List.length_drop]
      omega
    simp only [hlen]
    rw [if_neg hk]
    have hstop : min ((buf.take 0 ++ (data.drop addr).take (min buf.length (data.length - addr))
          ++ buf.drop (0 + min buf.length (data.length - addr))).length
            - (0 + min buf.length (data.length - addr)))
        (data.length - (addr + min buf.length (data.length - addr))) = 0 := by
      simp only [List.take_zero, List.nil_append, List.length_append, hlen, List.length_drop]
      rcases le_total buf.length (data.length - addr) with hc | hc
      · rw [min_eq_left hc]
        omega
      · rw [min_eq_right hc]
        omega
    rw [readLoop_stop ct l (0 + min buf.length (data.length - addr)) _ _ hstop]
    simp only [List.take_zero, List.nil_append, Nat.zero_add]

/-- read_block with a matching token performs the seek and fills min of the
buffer length and the available bytes; the rest of the buffer is untouched. -/
theorem read_block_ok (s : IoWrapper α) (token addr : Nat) (buf : List Nat)
    (ht : token = s.current_token) :
    read_block s token addr buf
      = (Except.ok (min buf.length (s.inner.data.length - addr)),
         (s.inner.data.drop addr).take (min buf.length (s.inner.data.length - addr))
           ++ buf.drop (min buf.length (s.inner.data.length - addr)),
         { s with inner := ⟨s.inner.data, addr + min buf.length (s.inner.data.length - addr)⟩ }) := by
  subst ht
  have hb : try_borrow_mut s s.current_token = Except.ok () := by
    simp [try_borrow_mut]
  have hloop : readLoop s.current_token s.current_token (buf.length + 1) (seekStart s.inner addr) buf 0
      = (Except.ok (min buf.length (s.inner.data.length - addr)),
         (s.inner.data.drop addr).take (min buf.length (s.inner.data.length - addr))
           ++ buf.drop (min buf.length (s.inner.data.length - addr)),
         ⟨s.inner.data, addr + min buf.length (s.inner.data.length - addr)⟩) :=
    readLoop_full s.current_token s.inner.data addr buf
  show (match try_borrow_mut s s.current_token with
    | Except.error e => (Except.error e, buf, s)
    | Except.ok _ =>
      ((readLoop s.current_token s.current_token (buf.length + 1) (seekStart s.inner addr) buf 0).1,
       (readLoop s.current_token s.current_token (buf.length + 1) (seekStart s.inner addr) buf 0).2.1,
       { s with inner :=
          (readLoop s.current_token s.current_token (buf.length + 1) (seekStart s.inner addr) buf 0).2.2 }))
    = (Except.ok (min buf.length (s.inner.data.length - addr)),
       (s.inner.data.drop addr).take (min buf.length (s.inner.data.length - addr))
         ++ buf.drop (min buf.length (s.inner.data.length - addr)),
       { s with inner := ⟨s.inner.data, addr + min buf.length (s.inner.data.length - addr)⟩ })
  rw [hb, hloop]

/-- Claim C3: lock pushes a fresh entry with count 1 on top of the global
current generation, advances the current token, returns a handle bound to the
new top, never fails with a generation mismatch, and composes transitively
under nesting. -/
theorem c3_lock_unconditional (s : IoWrapper α) (cb cb2 : α) :
    lock s cb
      = (s.current_token + 1,
         { s with current_token := s.current_token + 1,
                  token_stack := s.token_stack ++ [(1, cb)] })
    ∧ (lock (lock s cb).2 cb2).1 = s.current_token + 2 :=
  ⟨rfl, rfl⟩

/-- Claim C9: a block operation on a handle with a stale generation token
returns the locked generation-mismatch error and leaves the stream (and for
reads the buffer) completely unchanged. -/
theorem c9_stale_handle_rejected (s : IoWrapper α) (token : Nat)
    (h : token ≠ s.current_token) (buf buf2 : List Nat) (addr off sz : Nat) :
    append_block s token buf = (Except.error RFError.locked, s)
    ∧ update_block s token off buf = (Except.error RFError.locked, s)
    ∧ reserve_block s token sz = (Except.error RFError.locked, s)
    ∧ size s token = (Except.error RFError.locked, s)
    ∧ read_block s token addr buf2 = (Except.error RFError.locked, buf2, s) :=
  blockOps_locked s token h buf buf2 addr off sz

/-- Witness for claim C9 at a concrete fresh state and token 5. -/
theorem c9_stale_handle_rejected_witness :
    append_block (newRandFile ⟨[3], 0⟩ (0 : Nat)) 5 [1] = (Except.error RFError.locked, newRandFile ⟨[3], 0⟩ 0)
    ∧ update_block (newRandFile ⟨[3], 0⟩ (0 : Nat)) 5 0 [1] = (Except.error RFError.locked, newRandFile ⟨[3], 0⟩ 0)
    ∧ reserve_block (newRandFile ⟨[3], 0⟩ (0 : Nat)) 5 4 = (Except.error RFError.locked, newRandFile ⟨[3], 0⟩ 0)
    ∧ size (newRandFile ⟨[3], 0⟩ (0 : Nat)) 5 = (Except.error RFError.locked, newRandFile ⟨[3], 0⟩ 0)
    ∧ read_block (newRandFile ⟨[3], 0⟩ (0 : Nat)) 5 0 [2] = (Except.error RFError.locked, [2], newRandFile ⟨[3], 0⟩ 0) :=
  c9_stale_handle_rejected (newRandFile ⟨[3], 0⟩ 0) 5 (by decide) [1] [2] 0 0 4

/-- Claim C5: reading at an address within a stream of length N into a buffer
of length L returns ok with min L (N - addr) bytes filled from the stream, the
rest of the buffer untouched, and never errors because the stream is short. -/
theorem c5_read_within_stream (s : IoWrapper α) (token addr : Nat) (buf : List Nat)
    (ht : token = s.current_token) (_ha : addr ≤ s.inner.data.length) :
    read_block s token addr buf
      = (Except.ok (min buf.length (s.inner.data.length - addr)),
         (s.inner.data.drop addr).take (min buf.length (s.inner.data.length - addr))
           ++ buf.drop (min buf.length (s.inner.data.length - addr)),
         { s with inner := ⟨s.inner.data, addr + min buf.length (s.inner.data.length - addr)⟩ }) :=
  read_block_ok s token addr buf ht

/-- Witness for claim C5: stream of 3 bytes, address 1, buffer of length 4:
exactly 2 bytes are read back. -/
theorem c5_read_within_stream_witness :
    read_block (newRandFile ⟨[4, 5, 6], 0⟩ (0 : Nat)) 0 1 [9, 9, 9, 9]
      = (Except.ok (min 4 2), [5, 6] ++ [9, 9], newRandFile ⟨[4, 5, 6], 3⟩ 0) := by
  have h := c5_read_within_stream (newRandFile ⟨[4, 5, 6], 0⟩ (0 : Nat)) 0 1 [9, 9, 9, 9]
    (by decide) (by decide)
  simpa using h

/-- Claim C10: reading at an address at or past the end of the stream returns
ok 0 and leaves the buffer untouched. -/
theorem c10_read_past_end (s : IoWrapper α) (token addr : Nat) (buf : List Nat)
    (ht : token = s.current_token) (ha : s.inner.data.length ≤ addr) :
    read_block s token addr buf
      = (Except.ok 0, buf, { s with inner := ⟨s.inner.data, addr⟩ }) := by
  rw [read_block_ok s token addr buf ht]
  have h0 : s.inner.data.length - addr = 0 := by omega
  simp [h0]

/-- Witness for claim C10: stream of 1 byte, address 5. -/
theorem c10_read_past_end_witness :
    read_block (newRandFile ⟨[65], 0⟩ (0 : Nat)) 0 5 [9, 9]
      = (Except.ok 0, [9, 9], newRandFile ⟨[65], 5⟩ 0) := by
  have h := c10_read_past_end (newRandFile ⟨[65], 0⟩ (0 : Nat)) 0 5 [9, 9] (by decide) (by decide)
  simpa using h

/-- Writing at or past the end appends the buffer after a zero-filled gap. -/
theorem writeAll_at_end_pad (d : List Nat) (p : Nat) (buf : List Nat) (hp : d.length ≤ p) :
    writeAll ⟨d, p⟩ buf = ⟨d ++ List.replicate (p - d.length) 0 ++ buf, p + buf.length⟩ := by
  have hlenp : (d ++ List.replicate (p - d.length) 0).length = p := by
    simp [List.length_replicate]
    omega
  simp only [writeAll]
  rw [List.take_of_length_le (by omega), List.drop_eq_nil_of_le (by omega), List.append_nil]

/-- Writing strictly inside the data overwrites the addressed segment. -/
theorem writeAll_within (d : List Nat) (p : Nat) (buf : List Nat) (hp : p + buf.length ≤ d.length) :
    writeAll ⟨d, p⟩ buf = ⟨d.take p ++ buf ++ d.drop (p + buf.length), p + buf.length⟩ := by
  have h0 : p - d.length = 0 := by omega
  simp only [writeAll]
  rw [h0, List.replicate_zero, List.append_nil]

/-- append_block with a matching token returns the previous length and appends
the buffer at the end of the data. -/
theorem append_block_ok (s : IoWrapper α) (token : Nat) (buf : List Nat)
    (ht : token = s.current_token) :
    append_block s token buf
      = (Except.ok s.inner.data.length,
         { s with inner := ⟨s.inner.data ++ buf, s.inner.data.length + buf.length⟩ }) := by
  subst ht
  have hw : writeAll ⟨s.inner.data, s.inner.data.length⟩ buf
      = ⟨s.inner.data ++ buf, s.inner.data.length + buf.length⟩ := by
    rw [writeAll_at_end_pad _ _ _ le_rfl]
    simp
  simp [append_block, try_borrow_mut, seekEnd]
  exact hw

/-- update_block with a matching token writes the buffer at the offset. -/
theorem update_block_ok (s : IoWrapper α) (token off : Nat) (buf : List Nat)
    (ht : token = s.current_token) :
    update_block s token off buf
      = (Except.ok (), { s with inner := writeAll ⟨s.inner.data, off⟩ buf }) := by
  subst ht
  simp [update_block, try_borrow_mut, seekStart]

/-- reserve_block with a matching token and positive size returns the previous
length and extends the data with that many zero bytes. -/
theorem reserve_block_ok (s : IoWrapper α) (token m : Nat)
    (ht : token = s.current_token) :
    reserve_block s token (m + 1)
      = (Except.ok s.inner.data.length,
         { s with inner := ⟨s.inner.data ++ List.replicate (m + 1) 0,
                            s.inner.data.length + (m + 1)⟩ }) := by
  subst ht
  have hseek : seekCurrent ⟨s.inner.data, s.inner.data.length⟩ ((m : Nat) : Int)
      = Except.ok ⟨s.inner.data, s.inner.data.length + m⟩ := by
    simp only [seekCurrent]
    rw [if_neg (by omega)]
    simp only [Except.ok.injEq, Cursor.mk.injEq, true_and]
    omega
  have hw : writeAll ⟨s.inner.data, s.inner.data.length + m⟩ [0]
      = ⟨s.inner.data ++ List.replicate (m + 1) 0, s.inner.data.length + (m + 1)⟩ := by
    rw [writeAll_at_end_pad _ _ _ (by omega)]
    have h2 : s.inner.data.length + m - s.inner.data.length = m := by omega
    rw [h2, List.append_assoc, ← List.replicate_succ' m 0]
    rfl
  simp [reserve_block, try_borrow_mut, seekEnd, hseek, hw]

/-- Counterexample to claim C6 as stated, at size 0: on an empty stream the
reserve errors instead of returning the end position, and on a one-byte stream
it overwrites the previously written byte. -/
theorem c6_counterexample :
    (reserve_block (newRandFile ⟨[], 0⟩ (0 : Nat)) 0 0).1 = Except.error RFError.invalidSeek
    ∧ (reserve_block (append_block (newRandFile ⟨[], 0⟩ (0 : Nat)) 0 [65]).2 0 0).1 = Except.ok 1
    ∧ (reserve_block (append_block (newRandFile ⟨[], 0⟩ (0 : Nat)) 0 [65]).2 0 0).2.inner.data
        = [0] :=
  ⟨rfl, rfl, rfl⟩

/-- Claim C6 as amended: for every positive size, reserve_block returns the
prior end-of-stream position and extends the stream by exactly that many zero
bytes leaving the previous bytes unchanged, and a later update_block at the
returned address followed by read_block there returns exactly the data. -/
theorem c6_reserve_update_read (s : IoWrapper α) (token sz : Nat) (wbuf : List Nat)
    (ht : token = s.current_token) (hsz : 1 ≤ sz) (hw : wbuf.length = sz) :
    (reserve_block s token sz).1 = Except.ok s.inner.data.length
    ∧ (reserve_block s token sz).2.inner.data = s.inner.data ++ List.replicate sz 0
    ∧ (read_block (update_block (reserve_block s token sz).2 token
         s.inner.data.length wbuf).2 token s.inner.data.length
         (List.replicate sz 0)).1 = Except.ok sz
    ∧ (read_block (update_block (reserve_block s token sz).2 token
         s.inner.data.length wbuf).2 token s.inner.data.length
         (List.replicate sz 0)).2.1 = wbuf := by
  obtain ⟨m, rfl⟩ : ∃ m, sz = m + 1 := ⟨sz - 1, by omega⟩
  have hres := reserve_block_ok s token m ht
  rw [hres]
  have hdatalen : (s.inner.data ++ List.replicate (m + 1) 0).length
      = s.inner.data.length + (m + 1) := by
    simp
  have hupd := update_block_ok
    ({ s with inner := ⟨s.inner.data ++ List.replicate (m + 1) 0,
        s.inner.data.length + (m + 1)⟩ } : IoWrapper α) token s.inner.data.length wbuf ht
  rw [hupd]
  have hwr : writeAll ⟨s.inner.data ++ List.replicate (m + 1) 0, s.inner.data.length⟩ wbuf
      = ⟨s.inner.data ++ wbuf, s.inner.data.length + (m + 1)⟩ := by
    rw [writeAll_within _ _ _ (by rw [hdatalen]; omega)]
    rw [List.take_left, hw]
    rw [List.drop_eq_nil_of_le (by rw [hdatalen]), List.append_nil]
  rw [hwr]
  have hread := read_block_ok
    ({ s with inner := ⟨s.inner.data ++ wbuf, s.inner.data.length + (m + 1)⟩ } : IoWrapper α)
    token s.inner.data.length (List.replicate (m + 1) 0) ht
  rw [hread]
  have hlen2 : (s.inner.data ++ wbuf).length = s.inner.data.length + (m + 1) := by
    simp [hw]
  have hmin : min (List.replicate (m + 1) (0 : Nat)).length
      ((s.inner.data ++ wbuf).length - s.inner.data.length) = m + 1 := by
    rw [hlen2, List.length_replicate]
    omega
  refine ⟨rfl, rfl, by rw [hmin], ?_⟩
  rw [hmin, List.drop_left, List.take_of_length_le (by omega),
    List.drop_eq_nil_of_le (by rw [List.length_replicate]), List.append_nil]

/-- Witness for the amended claim C6, the end-to-end scenario: reserve 4 bytes
on an empty stream, update with four bytes, read them back. -/
theorem c6_reserve_update_read_witness :
    (reserve_block (newRandFile ⟨[], 0⟩ (0 : Nat)) 0 4).1 = Except.ok 0
    ∧ (reserve_block (newRandFile ⟨[], 0⟩ (0 : Nat)) 0 4).2.inner.data
        = [] ++ List.replicate 4 0
    ∧ (read_block (update_block (reserve_block (newRandFile ⟨[], 0⟩ (0 : Nat)) 0 4).2 0 0
         [87, 88, 89, 90]).2 0 0 (List.replicate 4 0)).1 = Except.ok 4
    ∧ (read_block (update_block (reserve_block (newRandFile ⟨[], 0⟩ (0 : Nat)) 0 4).2 0 0
         [87, 88, 89, 90]).2 0 0 (List.replicate 4 0)).2.1 = [87, 88, 89, 90] :=
  c6_reserve_update_read (newRandFile ⟨[], 0⟩ 0) 0 4 [87, 88, 89, 90]
    (by decide) (by decide) (by decide)

/-- Images of block-writing calls concatenate over list append. -/
theorem opImages_append (l1 l2 : List BlockOp) :
    opImages (l1 ++ l2) = opImages l1 ++ opImages l2 := by
  induction l1 with
  | nil => rfl
  | cons op l ih => simp [opImages, ih]

/-- The image of a sequence of block-writing calls has length the sum of the
call sizes. -/
theorem opImages_length (l : List BlockOp) : (opImages l).length = sumSizes l := by
  induction l with
  | nil => rfl
  | cons op l ih =>
    cases op <;> simp [opImages, sumSizes, opImage, opSize, ih]

/-- Running a sequence of append and reserve calls, all reserves of positive
size, with the current token appends exactly the call images to the data and
leaves the token bookkeeping unchanged. -/
theorem runOps_shape (ops : List BlockOp) :
    ∀ (s : IoWrapper α), (∀ n, BlockOp.reserve n ∈ ops → 1 ≤ n) →
    (runOps s s.current_token ops).inner.data = s.inner.data ++ opImages ops
    ∧ (runOps s s.current_token ops).current_token = s.current_token
    ∧ (runOps s s.current_token ops).token_stack = s.token_stack := by
  induction ops with
  | nil =>
    intro s _
    simp [runOps, opImages]
  | cons op rest ih =>
    intro s hres
    cases op with
    | append buf =>
      have hstep := append_block_ok s s.current_token buf rfl
      have ih2 := ih ({ s with inner := ⟨s.inner.data ++ buf,
          s.inner.data.length + buf.length⟩ } : IoWrapper α)
        (fun n hn => hres n (List.mem_cons_of_mem _ hn))
      simp only [runOps, hstep] at *
      refine ⟨?_, ih2.2.1, ih2.2.2⟩
      rw [ih2.1]
      simp [opImages, opImage]
    | reserve n =>
      obtain ⟨m, rfl⟩ : ∃ m, n = m + 1 :=
        ⟨n - 1, by have := hres n (List.mem_cons_self _ _); omega⟩
      have hstep := reserve_block_ok s s.current_token m rfl
      have ih2 := ih ({ s with inner := ⟨s.inner.data ++ List.replicate (m + 1) 0,
          s.inner.data.length + (m + 1)⟩ } : IoWrapper α)
        (fun n hn => hres n (List.mem_cons_of_mem _ hn))
      simp only [runOps, hstep] at *
      refine ⟨?_, ih2.2.1, ih2.2.2⟩
      rw [ih2.1]
      simp [opImages, opImage]

/-- Counterexample to claim C4 as stated: the sequence append [1] then
reserve 0 makes reading back the appended block at its returned address 0
yield the byte 0 instead of the written byte 1. -/
theorem c4_counterexample :
    (append_block (newRandFile ⟨[], 0⟩ (0 : Nat)) 0 [1]).1 = Except.ok 0
    ∧ (read_block (runOps (newRandFile ⟨[], 0⟩ (0 : Nat)) 0
         [BlockOp.append [1], BlockOp.reserve 0]) 0 0 [9]).2.1 = [0] :=
  ⟨rfl, rfl⟩

/-- Claim C4 as amended: for sequences of append and reserve calls with every
reserve of positive size, run from an empty backend on an idle handle, each
call returns the sum of the sizes of all previous calls as its start address,
and reading back an appended block at that address from the final state
returns exactly the written bytes. -/
theorem c4_append_reserve_addresses (noop : α) (ops : List BlockOp)
    (hres : ∀ n, BlockOp.reserve n ∈ ops → 1 ≤ n) :
    ∀ i (hi : i < ops.length),
      (∀ buf, ops[i] = BlockOp.append buf →
        (append_block (runOps (newRandFile ⟨[], 0⟩ noop) 0 (ops.take i)) 0 buf).1
          = Except.ok (sumSizes (ops.take i))
        ∧ (read_block (runOps (newRandFile ⟨[], 0⟩ noop) 0 ops) 0 (sumSizes (ops.take i))
             (List.replicate buf.length 0)).1 = Except.ok buf.length
        ∧ (read_block (runOps (newRandFile ⟨[], 0⟩ noop) 0 ops) 0 (sumSizes (ops.take i))
             (List.replicate buf.length 0)).2.1 = buf)
      ∧ (∀ n, ops[i] = BlockOp.reserve n →
        (reserve_block (runOps (newRandFile ⟨[], 0⟩ noop) 0 (ops.take i)) 0 n).1
          = Except.ok (sumSizes (ops.take i))) := by
  intro i hi
  have hbase : (newRandFile (⟨[], 0⟩ : Cursor) noop).current_token = 0 := rfl
  have hpre := runOps_shape (ops.take i) (newRandFile ⟨[], 0⟩ noop)
    (fun n hn => hres n (List.mem_of_mem_take hn))
  have hfull := runOps_shape ops (newRandFile ⟨[], 0⟩ noop) hres
  have hpredata : (runOps (newRandFile ⟨[], 0⟩ noop) 0 (ops.take i)).inner.data
      = opImages (ops.take i) := by
    have := hpre.1
    simpa using this
  have hprect : (runOps (newRandFile ⟨[], 0⟩ noop) 0 (ops.take i)).current_token = 0 :=
    hpre.2.1
  have hfulldata : (runOps (newRandFile ⟨[], 0⟩ noop) 0 ops).inner.data = opImages ops := by
    have := hfull.1
    simpa using this
  have hfullct : (runOps (newRandFile ⟨[], 0⟩ noop) 0 ops).current_token = 0 := hfull.2.1
  have hdecomp : opImages ops
      = opImages (ops.take i) ++ (opImage ops[i] ++ opImages (ops.drop (i + 1))) := by
    conv_lhs => rw [← List.take_append_drop i ops]
    rw [← List.getElem_cons_drop ops i hi, opImages_append]
    rfl
  constructor
  · intro buf hbuf
    have haddr : (append_block (runOps (newRandFile ⟨[], 0⟩ noop) 0 (ops.take i)) 0 buf).1
        = Except.ok (sumSizes (ops.take i)) := by
      rw [append_block_ok _ 0 buf hprect.symm, hpredata, opImages_length]
    refine ⟨haddr, ?_, ?_⟩
    · rw [read_block_ok _ 0 _ _ hfullct.symm, hfulldata, hdecomp, hbuf]
      have : min (List.replicate buf.length (0 : Nat)).length
          ((opImages (ops.take i) ++ (buf ++ opImages (ops.drop (i + 1)))).length
            - sumSizes (ops.take i)) = buf.length := by
        rw [List.length_replicate, List.length_append, List.length_append, opImages_length]
        omega
      simp only [opImage] at this ⊢
      rw [this]
    · rw [read_block_ok _ 0 _ _ hfullct.symm, hfulldata, hdecomp, hbuf]
      have hmin : min (List.replicate buf.length (0 : Nat)).length
          ((opImages (ops.take i) ++ (buf ++ opImages (ops.drop (i + 1)))).length
            - sumSizes (ops.take i)) = buf.length := by
        rw [List.length_replicate, List.length_append, List.length_append, opImages_length]
        omega
      simp only [opImage] at hmin ⊢
      rw [hmin]
      rw [show sumSizes (ops.take i) = (opImages (ops.take i)).length from
        (opImages_length _).symm]
      rw [List.drop_left, List.take_left, List.drop_eq_nil_of_le (by
        rw [List.length_replicate]), List.append_nil]
  · intro n hn
    obtain ⟨m, rfl⟩ : ∃ m, n = m + 1 :=
      ⟨n - 1, by
        have hmem : BlockOp.reserve n ∈ ops := hn ▸ List.getElem_mem hi
        have := hres n hmem
        omega⟩
    rw [reserve_block_ok _ 0 m hprect.symm, hpredata, opImages_length]

/-- getD at the index of the appended last element. -/
theorem getD_concat [Inhabited α] (l : List (Nat × α)) (x d : Nat × α) :
    (l ++ [x]).getD l.length d = x := by
  rw [List.getD_eq_getElem?_getD, List.getElem?_concat_length]
  rfl

/-- modifyCount at the index of the appended last element. -/
theorem modifyCount_concat (l : List (Nat × α)) (x : Nat × α) (f : Nat → Nat) :
    modifyCount (l ++ [x]) l.length f = l ++ [(f x.1, x.2)] := by
  induction l with
  | nil => rfl
  | cons e l ih => simp [modifyCount, ih]

/-- The pop cascade does nothing when the entry at the current token has a
nonzero count, or at the base. -/
theorem popLoop_stop [Inhabited α] (c : Nat) (st : List (Nat × α))
    (hcnt : c = 0 ∨ (st.getD c default).1 ≠ 0) :
    popLoop c st = (c, st, []) := by
  rcases hcnt with rfl | h
  · rfl
  · cases c with
    | zero => rfl
    | succ c2 =>
      simp only [popLoop]
      rw [if_neg h]

/-- The pop cascade pops exactly the drained top entry when the entry below it
is live or is the base. -/
theorem popLoop_concat_zero [Inhabited α] (st : List (Nat × α)) (c : Nat) (cbx : α)
    (hlen : st.length = c + 1) (hcnt : c = 0 ∨ (st.getD c default).1 ≠ 0) :
    popLoop (c + 1) (st ++ [(0, cbx)]) = (c, st, [cbx]) := by
  have hgd : (st ++ [(0, cbx)]).getD (c + 1) default = (0, cbx) := by
    rw [← hlen]
    exact getD_concat st (0, cbx) default
  simp only [popLoop, hgd, if_pos rfl, List.getLast?_concat, List.dropLast_concat,
    popLoop_stop c st hcnt]
  simp

/-- Cloning the lease handle bumps the count of the top entry. -/
theorem cloneHandle_concat (inner : Cursor) (st : List (Nat × α)) (c n : Nat) (cbx : α)
    (hlen : st.length = c + 1) :
    cloneHandle ⟨inner, c + 1, st ++ [(n, cbx)]⟩ (c + 1)
      = ⟨inner, c + 1, st ++ [(n + 1, cbx)]⟩ := by
  simp only [cloneHandle]
  rw [← hlen, modifyCount_concat]

/-- Cloning the lease handle m times bumps the count of the top entry by m. -/
theorem cloneN_concat (inner : Cursor) (st : List (Nat × α)) (c : Nat) (cbx : α)
    (hlen : st.length = c + 1) :
    ∀ m n, cloneN ⟨inner, c + 1, st ++ [(n, cbx)]⟩ (c + 1) m
      = ⟨inner, c + 1, st ++ [(n + m, cbx)]⟩ := by
  intro m
  induction m with
  | zero => intro n; rfl
  | succ m ih =>
    intro n
    show cloneN (cloneHandle ⟨inner, c + 1, st ++ [(n, cbx)]⟩ (c + 1)) (c + 1) m = _
    rw [cloneHandle_concat inner st c n cbx hlen, ih (n + 1)]
    have harith : n + 1 + m = n + (m + 1) := by omega
    rw [harith]

/-- Dropping one clone of the lease while others remain only decrements the
top count and fires nothing. -/
theorem dropHandle_concat_pos [Inhabited α] (inner : Cursor) (st : List (Nat × α))
    (c n : Nat) (cbx : α) (hlen : st.length = c + 1) :
    dropHandle ⟨inner, c + 1, st ++ [(n + 2, cbx)]⟩ (c + 1)
      = (⟨inner, c + 1, st ++ [(n + 1, cbx)]⟩, []) := by
  have hgd : (st ++ [(n + 2, cbx)]).getD (c + 1) default = (n + 2, cbx) := by
    rw [← hlen]
    exact getD_concat st (n + 2, cbx) default
  have hgd2 : ((st ++ [(n + 1, cbx)]).getD (c + 1) default).1 ≠ 0 := by
    rw [← hlen, getD_concat]
    omega
  simp only [dropHandle, hgd]
  rw [if_pos (by omega : 0 < (n + 2, cbx).1)]
  rw [← hlen, modifyCount_concat]
  have harith : (n + 2, cbx).1 - 1 = n + 1 := by omega
  rw [harith, hlen, popLoop_stop (c + 1) _ (Or.inr hgd2)]

/-- Dropping the last clone of the lease pops the top entry, fires its
callback, and reverts the current token to the entry below. -/
theorem dropHandle_concat_one [Inhabited α] (inner : Cursor) (st : List (Nat × α))
    (c : Nat) (cbx : α) (hlen : st.length = c + 1)
    (hcnt : c = 0 ∨ (st.getD c default).1 ≠ 0) :
    dropHandle ⟨inner, c + 1, st ++ [(1, cbx)]⟩ (c + 1) = (⟨inner, c, st⟩, [cbx]) := by
  have hgd : (st ++ [(1, cbx)]).getD (c + 1) default = (1, cbx) := by
    rw [← hlen]
    exact getD_concat st (1, cbx) default
  simp only [dropHandle, hgd]
  rw [if_pos (by omega : 0 < (1, cbx).1)]
  rw [← hlen, modifyCount_concat]
  have harith : (1, cbx).1 - 1 = 0 := by omega
  rw [harith, hlen, popLoop_concat_zero st c cbx hlen hcnt]

/-- Dropping j of the clones, j at most m, leaves m minus j further clones and
fires nothing. -/
theorem dropN_concat_partial [Inhabited α] (inner : Cursor) (st : List (Nat × α))
    (c : Nat) (cbx : α) (hlen : st.length = c + 1) :
    ∀ j n, j ≤ n →
      dropN ⟨inner, c + 1, st ++ [(n + 1, cbx)]⟩ (c + 1) j
        = (⟨inner, c + 1, st ++ [(n + 1 - j, cbx)]⟩, []) := by
  intro j
  induction j with
  | zero => intro n _; rfl
  | succ j ih =>
    intro n hj
    obtain ⟨n2, rfl⟩ : ∃ n2, n = n2 + 1 := ⟨n - 1, by omega⟩
    show (let r := dropHandle ⟨inner, c + 1, st ++ [(n2 + 1 + 1, cbx)]⟩ (c + 1)
          let r2 := dropN r.1 (c + 1) j
          (r2.1, r.2 ++ r2.2)) = _
    rw [show n2 + 1 + 1 = n2 + 2 from rfl, dropHandle_concat_pos inner st c n2 cbx hlen]
    simp only []
    rw [ih n2 (by omega)]
    have harith : n2 + 1 - j = n2 + 1 + 1 - (j + 1) := by omega
    rw [harith]
    rfl

/-- Dropping all m plus 1 clones of the lease fires the callback exactly once
and restores the state below the lease. -/
theorem dropN_concat_all [Inhabited α] (inner : Cursor) (st : List (Nat × α))
    (c : Nat) (cbx : α) (hlen : st.length = c + 1)
    (hcnt : c = 0 ∨ (st.getD c default).1 ≠ 0) :
    ∀ m, dropN ⟨inner, c + 1, st ++ [(m + 1, cbx)]⟩ (c + 1) (m + 1)
      = (⟨inner, c, st⟩, [cbx]) := by
  intro m
  induction m with
  | zero =>
    show (let r := dropHandle ⟨inner, c + 1, st ++ [(1, cbx)]⟩ (c + 1)
          let r2 := dropN r.1 (c + 1) 0
          (r2.1, r.2 ++ r2.2)) = _
    rw [dropHandle_concat_one inner st c cbx hlen hcnt]
    rfl
  | succ m ih =>
    show (let r := dropHandle ⟨inner, c + 1, st ++ [(m + 1 + 1, cbx)]⟩ (c + 1)
          let r2 := dropN r.1 (c + 1) (m + 1)
          (r2.1, r.2 ++ r2.2)) = _
    rw [show m + 1 + 1 = m + 2 from rfl, dropHandle_concat_pos inner st c m cbx hlen]
    simp only []
    rw [ih]
    rfl

/-- Claim C1: try_borrow_mut succeeds exactly for the current generation; as
long as the handle returned by lock or any of its clones is alive, every block
operation on a handle bound to an ancestor generation fails with the locked
generation-mismatch error; once all clones of the leased generation are
dropped, the state reverts to the pre-lock state, so ancestor operations
succeed again, and the registered callback has fired exactly once. -/
theorem c1_lease_generation_gate [Inhabited α] (s : IoWrapper α) (cb : α)
    (hlen : s.token_stack.length = s.current_token + 1)
    (hcnt : s.current_token = 0 ∨ (s.token_stack.getD s.current_token default).1 ≠ 0) :
    (∀ (s2 : IoWrapper α) (g : Nat), try_borrow_mut s2 g = Except.ok () ↔ g = s2.current_token)
    ∧ (∀ m j g, j ≤ m → g ≤ s.current_token → ∀ buf buf2 addr off sz,
        (append_block (dropN (cloneN (lock s cb).2 (lock s cb).1 m) (lock s cb).1 j).1
          g buf).1 = Except.error RFError.locked
        ∧ (update_block (dropN (cloneN (lock s cb).2 (lock s cb).1 m) (lock s cb).1 j).1
          g off buf).1 = Except.error RFError.locked
        ∧ (reserve_block (dropN (cloneN (lock s cb).2 (lock s cb).1 m) (lock s cb).1 j).1
          g sz).1 = Except.error RFError.locked
        ∧ (size (dropN (cloneN (lock s cb).2 (lock s cb).1 m) (lock s cb).1 j).1
          g).1 = Except.error RFError.locked
        ∧ (read_block (dropN (cloneN (lock s cb).2 (lock s cb).1 m) (lock s cb).1 j).1
          g addr buf2).1 = Except.error RFError.locked)
    ∧ (∀ m, dropN (cloneN (lock s cb).2 (lock s cb).1 m) (lock s cb).1 (m + 1) = (s, [cb]))
    ∧ (∀ buf, (append_block s s.current_token buf).1 = Except.ok s.inner.data.length) := by
  have hlock2 : (lock s cb).2
      = ⟨s.inner, s.current_token + 1, s.token_stack ++ [(1, cb)]⟩ := rfl
  have hlock1 : (lock s cb).1 = s.current_token + 1 := rfl
  have hstate : ∀ m j, j ≤ m →
      (dropN (cloneN (lock s cb).2 (lock s cb).1 m) (lock s cb).1 j).1
        = ⟨s.inner, s.current_token + 1, s.token_stack ++ [(m + 1 - j, cb)]⟩ := by
    intro m j hj
    rw [hlock2, hlock1, cloneN_concat s.inner s.token_stack s.current_token cb hlen m 1]
    have h1m : 1 + m = m + 1 := by omega
    rw [h1m, dropN_concat_partial s.inner s.token_stack s.current_token cb hlen j m hj]
  refine ⟨?_, ?_, ?_, ?_⟩
  · intro s2 g
    constructor
    · intro h
      by_contra hne
      simp [try_borrow_mut, hne] at h
    · intro h
      simp [try_borrow_mut, h]
  · intro m j g hj hg buf buf2 addr off sz
    rw [hstate m j hj]
    have hne : g ≠ (⟨s.inner, s.current_token + 1, s.token_stack ++ [(m + 1 - j, cb)]⟩
        : IoWrapper α).current_token := by
      show g ≠ s.current_token + 1
      omega
    have h := blockOps_locked _ g hne buf buf2 addr off sz
    exact ⟨by rw [h.1], by rw [h.2.1], by rw [h.2.2.1], by rw [h.2.2.2.1], by rw [h.2.2.2.2]⟩
  · intro m
    rw [hlock2, hlock1, cloneN_concat s.inner s.token_stack s.current_token cb hlen m 1]
    have h1m : 1 + m = m + 1 := by omega
    rw [h1m, dropN_concat_all s.inner s.token_stack s.current_token cb hlen hcnt m]
  · intro buf
    rw [append_block_ok s s.current_token buf rfl]

/-- Witness for claim C1 at a fresh one-byte state with callback label 7 and
clone count 2. -/
theorem c1_lease_generation_gate_witness :
    (∀ (s2 : IoWrapper Nat) (g : Nat), try_borrow_mut s2 g = Except.ok () ↔ g = s2.current_token)
    ∧ (∀ m j g, j ≤ m → g ≤ (newRandFile ⟨[3], 0⟩ (0 : Nat)).current_token →
        ∀ buf buf2 addr off sz,
        (append_block (dropN (cloneN (lock (newRandFile ⟨[3], 0⟩ (0 : Nat)) 7).2
          (lock (newRandFile ⟨[3], 0⟩ (0 : Nat)) 7).1 m)
          (lock (newRandFile ⟨[3], 0⟩ (0 : Nat)) 7).1 j).1 g buf).1
            = Except.error RFError.locked
        ∧ (update_block (dropN (cloneN (lock (newRandFile ⟨[3], 0⟩ (0 : Nat)) 7).2
          (lock (newRandFile ⟨[3], 0⟩ (0 : Nat)) 7).1 m)
          (lock (newRandFile ⟨[3], 0⟩ (0 : Nat)) 7).1 j).1 g off buf).1
            = Except.error RFError.locked
        ∧ (reserve_block (dropN (cloneN (lock (newRandFile ⟨[3], 0⟩ (0 : Nat)) 7).2
          (lock (newRandFile ⟨[3], 0⟩ (0 : Nat)) 7).1 m)
          (lock (newRandFile ⟨[3], 0⟩ (0 : Nat)) 7).1 j).1 g sz).1
            = Except.error RFError.locked
        ∧ (size (dropN (cloneN (lock (newRandFile ⟨[3], 0⟩ (0 : Nat)) 7).2
          (lock (newRandFile ⟨[3], 0⟩ (0 : Nat)) 7).1 m)
          (lock (newRandFile ⟨[3], 0⟩ (0 : Nat)) 7).1 j).1 g).1
            = Except.error RFError.locked
        ∧ (read_block (dropN (cloneN (lock (newRandFile ⟨[3], 0⟩ (0 : Nat)) 7).2
          (lock (newRandFile ⟨[3], 0⟩ (0 : Nat)) 7).1 m)
          (lock (newRandFile ⟨[3], 0⟩ (0 : Nat)) 7).1 j).1 g addr buf2).1
            = Except.error RFError.locked)
    ∧ (∀ m, dropN (cloneN (lock (newRandFile ⟨[3], 0⟩ (0 : Nat)) 7).2
        (lock (newRandFile ⟨[3], 0⟩ (0 : Nat)) 7).1 m)
        (lock (newRandFile ⟨[3], 0⟩ (0 : Nat)) 7).1 (m + 1)
          = (newRandFile ⟨[3], 0⟩ (0 : Nat), [7]))
    ∧ (∀ buf, (append_block (newRandFile ⟨[3], 0⟩ (0 : Nat))
        (newRandFile ⟨[3], 0⟩ (0 : Nat)).current_token buf).1 = Except.ok 1) :=
  c1_lease_generation_gate (newRandFile ⟨[3], 0⟩ (0 : Nat)) 7 (by decide) (Or.inl rfl)

/-- modifyCount preserves list length. -/
theorem length_modifyCount (l : List (Nat × α)) :
    ∀ (i : Nat) (f : Nat → Nat), (modifyCount l i f).length = l.length := by
  induction l with
  | nil => intro i f; rfl
  | cons e l ih =>
    intro i f
    cases i with
    | zero => rfl
    | succ j => simp [modifyCount, ih]

/-- modifyCount leaves every other index unchanged. -/
theorem getElem?_modifyCount_ne (l : List (Nat × α)) :
    ∀ (t i : Nat) (f : Nat → Nat), i ≠ t → (modifyCount l t f)[i]? = l[i]? := by
  induction l with
  | nil => intro t i f _; rfl
  | cons e l ih =>
    intro t i f hne
    cases t with
    | zero =>
      cases i with
      | zero => exact absurd rfl hne
      | succ j => simp [modifyCount]
    | succ t2 =>
      cases i with
      | zero => simp [modifyCount]
      | succ j =>
        simp only [modifyCount, List.getElem?_cons_succ]
        exact ih t2 j f (by omega)

/-- modifyCount never changes the callback component at any index. -/
theorem getElem?_modifyCount_snd (l : List (Nat × α)) :
    ∀ (t i : Nat) (f : Nat → Nat),
      ((modifyCount l t f)[i]?).map Prod.snd = (l[i]?).map Prod.snd := by
  induction l with
  | nil => intro t i f; rfl
  | cons e l ih =>
    intro t i f
    cases t with
    | zero =>
      cases i with
      | zero => simp [modifyCount]
      | succ j => simp [modifyCount]
    | succ t2 =>
      cases i with
      | zero => simp [modifyCount]
      | succ j =>
        simp only [modifyCount, List.getElem?_cons_succ]
        exact ih t2 j f

/-- A list with no last element is empty. -/
theorem eq_nil_of_getLast?_none {β : Type} (l : List β) (h : l.getLast? = none) : l = [] := by
  cases l with
  | nil => rfl
  | cons a l => simp [List.getLast?_concat] at h

/-- Indexing dropLast inside its length agrees with the original list. -/
theorem getElem?_dropLast_of_lt {β : Type} (l : List β) (i : Nat)
    (h : i < l.dropLast.length) : l.dropLast[i]? = l[i]? := by
  rw [List.dropLast_eq_take, List.getElem?_take_of_lt (by simpa using h)]

/-- The pop cascade never increases the current token. -/
theorem popLoop_fst_le [Inhabited α] : ∀ (n : Nat) (l : List (Nat × α)), (popLoop n l).1 ≤ n := by
  intro n
  induction n with
  | zero => intro l; exact le_rfl
  | succ n ih =>
    intro l
    simp only [popLoop]
    by_cases h : (l.getD (n + 1) default).1 = 0
    · rw [if_pos h]
      cases hl : l.getLast? with
      | some e => exact le_trans (ih l.dropLast) (by omega)
      | none => exact le_trans (ih l) (by omega)
    · rw [if_neg h]

/-- The pop cascade never lengthens the stack. -/
theorem popLoop_length_le [Inhabited α] :
    ∀ (n : Nat) (l : List (Nat × α)), (popLoop n l).2.1.length ≤ l.length := by
  intro n
  induction n with
  | zero => intro l; exact le_rfl
  | succ n ih =>
    intro l
    simp only [popLoop]
    by_cases h : (l.getD (n + 1) default).1 = 0
    · rw [if_pos h]
      cases hl : l.getLast? with
      | some e =>
        refine le_trans (ih l.dropLast) ?_
        rw [List.length_dropLast]
        omega
      | none => exact ih l
    · rw [if_neg h]

/-- The pop cascade preserves the stack-length bookkeeping invariant. -/
theorem popLoop_length [Inhabited α] :
    ∀ (n : Nat) (l : List (Nat × α)), l.length = n + 1 →
      (popLoop n l).2.1.length = (popLoop n l).1 + 1 := by
  intro n
  induction n with
  | zero => intro l h; exact h
  | succ n ih =>
    intro l h
    simp only [popLoop]
    by_cases hc : (l.getD (n + 1) default).1 = 0
    · rw [if_pos hc]
      cases hl : l.getLast? with
      | some e =>
        exact ih l.dropLast (by rw [List.length_dropLast]; omega)
      | none =>
        have := eq_nil_of_getLast?_none l hl
        subst this
        simp at h
    · rw [if_neg hc]
      exact h

/-- The pop cascade only removes entries from the top: every index inside the
resulting stack reads the same entry as in the input stack. -/
theorem popLoop_getElem? [Inhabited α] :
    ∀ (n : Nat) (l : List (Nat × α)) (i : Nat),
      i < (popLoop n l).2.1.length → (popLoop n l).2.1[i]? = l[i]? := by
  intro n
  induction n with
  | zero => intro l i _; rfl
  | succ n ih =>
    intro l i hi
    simp only [popLoop] at hi ⊢
    by_cases hc : (l.getD (n + 1) default).1 = 0
    · rw [if_pos hc]
      rw [if_pos hc] at hi
      cases hl : l.getLast? with
      | some e =>
        rw [hl] at hi
        simp only [] at hi ⊢
        rw [ih l.dropLast i hi]
        refine getElem?_dropLast_of_lt l i ?_
        exact lt_of_lt_of_le hi (popLoop_length_le n l.dropLast)
      | none =>
        rw [hl] at hi
        exact ih l i hi
    · rw [if_neg hc]

/-- Counterexample to claim C7 as stated: after one lock the current
generation is 1, yet cloning the base handle (token 0) mutates the entry at
index 0 and leaves the entry at the current generation unchanged, so ordinary
handle creation does not mutate only the entry at the current generation. -/
theorem c7_counterexample :
    (cloneHandle (lock (newRandFile ⟨[], 0⟩ (0 : Nat)) 7).2 0).token_stack[0]?
      ≠ (lock (newRandFile ⟨[], 0⟩ (0 : Nat)) 7).2.token_stack[0]?
    ∧ (cloneHandle (lock (newRandFile ⟨[], 0⟩ (0 : Nat)) 7).2 0).token_stack[1]?
      = (lock (newRandFile ⟨[], 0⟩ (0 : Nat)) 7).2.token_stack[1]?
    ∧ (lock (newRandFile ⟨[], 0⟩ (0 : Nat)) 7).2.current_token = 1 := by
  refine ⟨by decide, by decide, rfl⟩

/-- Claim C7 as amended: every state reachable by construction, clone, lock
and drop satisfies the bookkeeping invariant: the stack length is one more
than the current token, the stack is nonempty with the base no-op callback at
index 0 and the current token a valid index, and counts are non-negative;
moreover clone mutates only the outstanding count of the entry at the cloned
handle token, and drop mutates only that entry apart from popping drained top
entries. -/
theorem c7_state_invariants [Inhabited α] (noop : α) (s : IoWrapper α)
    (h : Reachable noop s) :
    (s.token_stack.length = s.current_token + 1
     ∧ 1 ≤ s.token_stack.length
     ∧ s.current_token < s.token_stack.length
     ∧ (s.token_stack[0]?).map Prod.snd = some noop
     ∧ ∀ e ∈ s.token_stack, 0 ≤ e.1)
    ∧ (∀ (s2 : IoWrapper α) (t i : Nat), i ≠ t →
        (cloneHandle s2 t).token_stack[i]? = s2.token_stack[i]?
        ∧ (cloneHandle s2 t).current_token = s2.current_token
        ∧ (cloneHandle s2 t).inner = s2.inner)
    ∧ (∀ (s2 : IoWrapper α) (t i : Nat), i ≠ t →
        i < (dropHandle s2 t).1.token_stack.length →
        (dropHandle s2 t).1.token_stack[i]? = s2.token_stack[i]?
        ∧ (dropHandle s2 t).1.current_token ≤ s2.current_token
        ∧ (dropHandle s2 t).1.inner = s2.inner) := by
  have hmain : s.token_stack.length = s.current_token + 1
      ∧ (s.token_stack[0]?).map Prod.snd = some noop := by
    induction h with
    | ofNew st => exact ⟨rfl, rfl⟩
    | ofLock s2 cb hs ih =>
      constructor
      · show (s2.token_stack ++ [(1, cb)]).length = s2.current_token + 1 + 1
        rw [List.length_append, ih.1]
        rfl
      · show ((s2.token_stack ++ [(1, cb)])[0]?).map Prod.snd = some noop
        rw [List.getElem?_append_left (by omega)]
        exact ih.2
    | ofClone s2 t hs ih =>
      constructor
      · show (modifyCount s2.token_stack t _).length = s2.current_token + 1
        rw [length_modifyCount, ih.1]
      · show ((modifyCount s2.token_stack t _)[0]?).map Prod.snd = some noop
        rw [getElem?_modifyCount_snd, ih.2]
    | ofDrop s2 t hs ih =>
      have hst1len : (if 0 < (s2.token_stack.getD t default).1 then
          modifyCount s2.token_stack t (fun c => c - 1)
          else s2.token_stack).length = s2.current_token + 1 := by
        by_cases hc : 0 < (s2.token_stack.getD t default).1
        · rw [if_pos hc, length_modifyCount, ih.1]
        · rw [if_neg hc, ih.1]
      have hst1snd : ((if 0 < (s2.token_stack.getD t default).1 then
          modifyCount s2.token_stack t (fun c => c - 1)
          else s2.token_stack)[0]?).map Prod.snd = some noop := by
        by_cases hc : 0 < (s2.token_stack.getD t default).1
        · rw [if_pos hc, getElem?_modifyCount_snd, ih.2]
        · rw [if_neg hc, ih.2]
      constructor
      · exact popLoop_length s2.current_token _ hst1len
      · have hlen2 := popLoop_length s2.current_token _ hst1len
        have h0 : 0 < (popLoop s2.current_token
            (if 0 < (s2.token_stack.getD t default).1 then
              modifyCount s2.token_stack t (fun c => c - 1)
              else s2.token_stack)).2.1.length := by omega
        show ((popLoop s2.current_token _).2.1[0]?).map Prod.snd = some noop
        rw [popLoop_getElem? s2.current_token _ 0 h0]
        exact hst1snd
  refine ⟨⟨hmain.1, by omega, by omega, hmain.2, fun e _ => Nat.zero_le _⟩, ?_, ?_⟩
  · intro s2 t i hne
    exact ⟨getElem?_modifyCount_ne s2.token_stack t i _ hne, rfl, rfl⟩
  · intro s2 t i hne hi
    refine ⟨?_, popLoop_fst_le s2.current_token _, rfl⟩
    show (popLoop s2.current_token _).2.1[i]? = s2.token_stack[i]?
    rw [popLoop_getElem? s2.current_token _ i hi]
    by_cases hc : 0 < (s2.token_stack.getD t default).1
    · rw [if_pos hc, getElem?_modifyCount_ne s2.token_stack t i _ hne]
    · rw [if_neg hc]

/-- Witness for the amended claim C7 at the freshly constructed state. -/
theorem c7_state_invariants_witness :
    ((newRandFile ⟨[], 0⟩ (0 : Nat)).token_stack.length
        = (newRandFile ⟨[], 0⟩ (0 : Nat)).current_token + 1
     ∧ 1 ≤ (newRandFile ⟨[], 0⟩ (0 : Nat)).token_stack.length
     ∧ (newRandFile ⟨[], 0⟩ (0 : Nat)).current_token
        < (newRandFile ⟨[], 0⟩ (0 : Nat)).token_stack.length
     ∧ ((newRandFile ⟨[], 0⟩ (0 : Nat)).token_stack[0]?).map Prod.snd = some 0
     ∧ ∀ e ∈ (newRandFile ⟨[], 0⟩ (0 : Nat)).token_stack, 0 ≤ e.1)
    ∧ (∀ (s2 : IoWrapper Nat) (t i : Nat), i ≠ t →
        (cloneHandle s2 t).token_stack[i]? = s2.token_stack[i]?
        ∧ (cloneHandle s2 t).current_token = s2.current_token
        ∧ (cloneHandle s2 t).inner = s2.inner)
    ∧ (∀ (s2 : IoWrapper Nat) (t i : Nat), i ≠ t →
        i < (dropHandle s2 t).1.token_stack.length →
        (dropHandle s2 t).1.token_stack[i]? = s2.token_stack[i]?
        ∧ (dropHandle s2 t).1.current_token ≤ s2.current_token
        ∧ (dropHandle s2 t).1.inner = s2.inner) :=
  c7_state_invariants 0 (newRandFile ⟨[], 0⟩ 0) (Reachable.ofNew ⟨[], 0⟩)

/-- Witness for the amended claim C4, the end-to-end scenario: append three
bytes then two bytes; the second call starts at address 3 and its bytes read
back exactly. -/
theorem c4_append_reserve_addresses_witness :
    (append_block (runOps (newRandFile ⟨[], 0⟩ (0 : Nat)) 0 [BlockOp.append [97, 98, 99]])
       0 [100, 101]).1 = Except.ok 3
    ∧ (read_block (runOps (newRandFile ⟨[], 0⟩ (0 : Nat)) 0
         [BlockOp.append [97, 98, 99], BlockOp.append [100, 101]]) 0 3
         (List.replicate 2 0)).1 = Except.ok 2
    ∧ (read_block (runOps (newRandFile ⟨[], 0⟩ (0 : Nat)) 0
         [BlockOp.append [97, 98, 99], BlockOp.append [100, 101]]) 0 3
         (List.replicate 2 0)).2.1 = [100, 101] := by
  have h := (c4_append_reserve_addresses (0 : Nat)
    [BlockOp.append [97, 98, 99], BlockOp.append [100, 101]]
    (by intro n hn; simp at hn) 1 (by decide)).1 [100, 101] rfl
  exact h

/-- Length of the generation stack. -/
theorem genStack_length (rho : Nat → Nat) (cb : Nat → α) :
    ∀ m, (genStack rho cb m).length = m + 1 := by
  intro m
  induction m with
  | zero => rfl
  | succ m ih => simp [genStack, ih]

/-- getD on the generation stack reads the selected generation. -/
theorem getD_genStack [Inhabited α] (rho : Nat → Nat) (cb : Nat → α) :
    ∀ m g, g ≤ m → (genStack rho cb m).getD g default = (rho g, cb g) := by
  intro m
  induction m with
  | zero =>
    intro g hg
    interval_cases g
    rfl
  | succ m ih =>
    intro g hg
    rcases Nat.lt_or_ge g (m + 1) with hlt | hge
    · show ((genStack rho cb m ++ [(rho (m + 1), cb (m + 1))]).getD g default) = _
      rw [List.getD_eq_getElem?_getD, List.getElem?_append_left (by rw [genStack_length]; omega),
        ← List.getD_eq_getElem?_getD]
      exact ih g (by omega)
    · have hgeq : g = m + 1 := by omega
      subst hgeq
      have hc := getD_concat (genStack rho cb m) (rho (m + 1), cb (m + 1)) (default : Nat × α)
      rw [genStack_length] at hc
      exact hc

/-- modifyCount acts on the left part of an append when the index is inside. -/
theorem modifyCount_append_left (l l2 : List (Nat × α)) :
    ∀ (i : Nat) (f : Nat → Nat), i < l.length →
      modifyCount (l ++ l2) i f = modifyCount l i f ++ l2 := by
  induction l with
  | nil => intro i f h; simp at h
  | cons e l ih =>
    intro i f h
    cases i with
    | zero => rfl
    | succ j =>
      show e :: modifyCount (l ++ l2) j f = e :: (modifyCount l j f ++ l2)
      rw [ih j f (by simp at h; omega)]

/-- modifyCount on the generation stack updates the selected count. -/
theorem modifyCount_genStack (rho : Nat → Nat) (cb : Nat → α) :
    ∀ m g (f : Nat → Nat), g ≤ m →
      modifyCount (genStack rho cb m) g f
        = genStack (fun x => if x = g then f (rho x) else rho x) cb m := by
  intro m
  induction m with
  | zero =>
    intro g f hg
    interval_cases g
    simp [genStack, modifyCount]
  | succ m ih =>
    intro g f hg
    rcases Nat.lt_or_ge g (m + 1) with hlt | hge
    · show modifyCount (genStack rho cb m ++ [(rho (m + 1), cb (m + 1))]) g f = _
      rw [modifyCount_append_left _ _ g f (by rw [genStack_length]; omega), ih g f (by omega)]
      show _ = genStack _ cb m ++ [((fun x => if x = g then f (rho x) else rho x) (m + 1),
        cb (m + 1))]
      rw [show (fun x => if x = g then f (rho x) else rho x) (m + 1) = rho (m + 1) from by
        simp only [if_neg (by omega : ¬(m + 1 = g))]]
    · have hgeq : g = m + 1 := by omega
      subst hgeq
      have hstep : modifyCount (genStack rho cb m ++ [(rho (m + 1), cb (m + 1))]) (m + 1) f
          = genStack rho cb m ++ [(f (rho (m + 1)), cb (m + 1))] := by
        have hc := modifyCount_concat (genStack rho cb m) (rho (m + 1), cb (m + 1)) f
        rw [genStack_length] at hc
        exact hc
      show modifyCount (genStack rho cb m ++ [(rho (m + 1), cb (m + 1))]) (m + 1) f = _
      rw [hstep]
      show _ = genStack (fun x => if x = m + 1 then f (rho x) else rho x) cb m
        ++ [(if m + 1 = m + 1 then f (rho (m + 1)) else rho (m + 1), cb (m + 1))]
      rw [if_pos rfl]
      have hcongr : ∀ m2, m2 ≤ m → genStack rho cb m2
          = genStack (fun x => if x = m + 1 then f (rho x) else rho x) cb m2 := by
        intro m2
        induction m2 with
        | zero =>
          intro _
          simp [genStack, if_neg (by omega : ¬(0 = m + 1))]
        | succ m3 ih2 =>
          intro hle
          simp only [genStack]
          rw [← ih2 (by omega), if_neg (by omega : ¬(m3 + 1 = m + 1))]
      rw [← hcongr m le_rfl]

/-- maxAlive is bounded by its range. -/
theorem maxAlive_le (rho : Nat → Nat) : ∀ m, maxAlive rho m ≤ m := by
  intro m
  induction m with
  | zero => exact le_rfl
  | succ m ih =>
    by_cases h : rho (m + 1) = 0
    · simp only [maxAlive, if_pos h]
      omega
    · simp only [maxAlive, if_neg h]
      exact le_rfl

/-- A live generation is at most maxAlive. -/
theorem maxAlive_mem (rho : Nat → Nat) :
    ∀ m g, 1 ≤ g → g ≤ m → rho g ≠ 0 → g ≤ maxAlive rho m := by
  intro m
  induction m with
  | zero => intro g h1 h2 _; omega
  | succ m ih =>
    intro g h1 h2 hg
    by_cases h : rho (m + 1) = 0
    · simp only [maxAlive, if_pos h]
      have hgm : g ≤ m := by
        by_contra hcon
        have hge : g = m + 1 := by omega
        exact hg (hge ▸ h)
      exact ih g h1 hgm hg
    · simp only [maxAlive, if_neg h]
      omega

/-- Every generation above maxAlive and inside the range is drained. -/
theorem maxAlive_zero_above (rho : Nat → Nat) :
    ∀ m x, maxAlive rho m < x → x ≤ m → rho x = 0 := by
  intro m
  induction m with
  | zero => intro x h1 h2; omega
  | succ m ih =>
    intro x h1 h2
    by_cases h : rho (m + 1) = 0
    · rw [maxAlive, if_pos h] at h1
      rcases Nat.lt_or_ge x (m + 1) with h3 | h3
      · exact ih x h1 (by omega)
      · have : x = m + 1 := by omega
        subst this
        exact h
    · rw [maxAlive, if_neg h] at h1
      omega

/-- maxAlive is unchanged by extending the range over drained generations. -/
theorem maxAlive_ext (rho : Nat → Nat) :
    ∀ b a, a ≤ b → (∀ x, a < x → x ≤ b → rho x = 0) → maxAlive rho b = maxAlive rho a := by
  intro b
  induction b with
  | zero =>
    intro a h1 _
    have ha : a = 0 := by omega
    subst ha
    rfl
  | succ b ih =>
    intro a h1 h2
    rcases Nat.lt_or_ge a (b + 1) with h3 | h3
    · show (if rho (b + 1) = 0 then maxAlive rho b else b + 1) = maxAlive rho a
      rw [if_pos (h2 (b + 1) (by omega) le_rfl)]
      exact ih a (by omega) (fun x hx1 hx2 => h2 x hx1 (by omega))
    · have ha : a = b + 1 := by omega
      subst ha
      rfl

/-- maxAlive is monotone in pointwise liveness. -/
theorem maxAlive_mono (rho1 rho2 : Nat → Nat)
    (h : ∀ x, rho1 x ≠ 0 → rho2 x ≠ 0) : ∀ m, maxAlive rho1 m ≤ maxAlive rho2 m := by
  intro m
  induction m with
  | zero => exact le_rfl
  | succ m ih =>
    by_cases h1 : rho1 (m + 1) = 0
    · simp only [maxAlive, if_pos h1]
      by_cases h2 : rho2 (m + 1) = 0
      · simp only [if_pos h2]
        exact ih
      · simp only [if_neg h2]
        exact le_trans ih (le_trans (maxAlive_le rho2 m) (by omega))
    · simp only [maxAlive, if_neg h1, if_neg (h _ h1)]
      exact le_rfl

/-- maxAlive of an everywhere-drained range is zero. -/
theorem maxAlive_zero_all (rho : Nat → Nat) :
    ∀ m, (∀ g, 1 ≤ g → g ≤ m → rho g = 0) → maxAlive rho m = 0 := by
  intro m
  induction m with
  | zero => intro _; rfl
  | succ m ih =>
    intro h
    rw [maxAlive, if_pos (h (m + 1) (by omega) le_rfl)]
    exact ih (fun g h1 h2 => h g h1 (by omega))

/-- An empty descending range. -/
theorem descRange_nil (hi lo : Nat) (h : hi ≤ lo) : descRange hi lo = [] := by
  cases hi with
  | zero => rfl
  | succ hi2 => rw [descRange, if_pos h]

/-- Unfolding a nonempty descending range. -/
theorem descRange_cons (m lo : Nat) (h : lo ≤ m) :
    descRange (m + 1) lo = (m + 1) :: descRange m lo := by
  rw [descRange, if_neg (by omega)]

/-- Concatenation of adjacent descending ranges. -/
theorem descRange_append :
    ∀ a b c, c ≤ b → b ≤ a → descRange a b ++ descRange b c = descRange a c := by
  intro a
  induction a with
  | zero =>
    intro b c h1 h2
    have hb : b = 0 := by omega
    subst hb
    simp [descRange]
  | succ a ih =>
    intro b c h1 h2
    rcases Nat.lt_or_ge b (a + 1) with h3 | h3
    · rw [descRange_cons a b (by omega), descRange_cons a c (by omega)]
      show (a + 1) :: (descRange a b ++ descRange b c) = _
      rw [ih b c h1 (by omega)]
    · have : b = a + 1 := by omega
      subst this
      rw [descRange_nil (a + 1) (a + 1) le_rfl]
      rfl

/-- countTok distributes over append. -/
theorem countTok_append (g : Nat) :
    ∀ (l1 l2 : List Nat), countTok g (l1 ++ l2) = countTok g l1 + countTok g l2 := by
  intro l1 l2
  induction l1 with
  | nil => simp [countTok]
  | cons t ts ih =>
    show (if t = g then 1 else 0) + countTok g (ts ++ l2) = _
    rw [ih]
    show _ = (if t = g then 1 else 0) + countTok g ts + countTok g l2
    omega

/-- countTok vanishes when the token never occurs. -/
theorem countTok_zero (g : Nat) :
    ∀ (l : List Nat), (∀ t ∈ l, t ≠ g) → countTok g l = 0 := by
  intro l
  induction l with
  | nil => intro _; rfl
  | cons t ts ih =>
    intro h
    show (if t = g then 1 else 0) + countTok g ts = 0
    rw [if_neg (h t (List.mem_cons_self t ts)), ih (fun x hx => h x (List.mem_cons_of_mem t hx))]

/-- The pop cascade on a generation stack pops exactly the drained top
segment, reverting to maxAlive and collecting callbacks innermost first. -/
theorem popLoop_genStack [Inhabited α] (rho : Nat → Nat) (cb : Nat → α) :
    ∀ m, popLoop m (genStack rho cb m)
      = (maxAlive rho m, genStack rho cb (maxAlive rho m),
         (descRange m (maxAlive rho m)).map cb) := by
  intro m
  induction m with
  | zero => rfl
  | succ m ih =>
    simp only [popLoop]
    rw [getD_genStack rho cb (m + 1) (m + 1) le_rfl]
    by_cases h : rho (m + 1) = 0
    · rw [if_pos h]
      have hlast : (genStack rho cb (m + 1)).getLast? = some (rho (m + 1), cb (m + 1)) :=
        List.getLast?_concat _
      have hdrop : (genStack rho cb (m + 1)).dropLast = genStack rho cb m :=
        List.dropLast_concat
      rw [hlast, hdrop]
      simp only []
      rw [ih]
      have hM : maxAlive rho (m + 1) = maxAlive rho m := by
        simp only [maxAlive, if_pos h]
      rw [hM, descRange_cons m (maxAlive rho m) (maxAlive_le rho m)]
      rfl
    · rw [if_neg h]
      have hM : maxAlive rho (m + 1) = m + 1 := by
        simp only [maxAlive, if_neg h]
      rw [hM, descRange_nil (m + 1) (m + 1) le_rfl]
      rfl

/-- Dropping a live generation handle on a generation-stack state decrements
its count and cascades to the new maxAlive, firing the popped callbacks
innermost first. -/
theorem dropHandle_nest [Inhabited α] (k g : Nat) (cb : Nat → α) (rho : Nat → Nat)
    (inner : Cursor) (hg1 : 1 ≤ g) (hgk : g ≤ k) (hrho : rho g ≠ 0) :
    dropHandle (⟨inner, maxAlive rho k, genStack rho cb (maxAlive rho k)⟩ : IoWrapper α) g
      = (⟨inner, maxAlive (fun x => if x = g then rho x - 1 else rho x) k,
          genStack (fun x => if x = g then rho x - 1 else rho x) cb
            (maxAlive (fun x => if x = g then rho x - 1 else rho x) k)⟩,
         (descRange (maxAlive rho k)
           (maxAlive (fun x => if x = g then rho x - 1 else rho x) k)).map cb) := by
  have hgM : g ≤ maxAlive rho k := maxAlive_mem rho k g hg1 hgk hrho
  simp only [dropHandle]
  rw [getD_genStack rho cb (maxAlive rho k) g hgM]
  rw [if_pos (Nat.pos_of_ne_zero hrho : 0 < (rho g, cb g).1)]
  rw [modifyCount_genStack rho cb (maxAlive rho k) g (fun c => c - 1) hgM]
  rw [popLoop_genStack]
  have hM1 : maxAlive (fun x => if x = g then rho x - 1 else rho x) (maxAlive rho k)
      = maxAlive (fun x => if x = g then rho x - 1 else rho x) k := by
    symm
    refine maxAlive_ext _ k (maxAlive rho k) (maxAlive_le rho k) ?_
    intro x hx1 hx2
    rw [if_neg (by omega : ¬(x = g))]
    exact maxAlive_zero_above rho k x hx1 hx2
  rw [hM1]

/-- Unfolding of runDrops on a nonempty drop list. -/
theorem runDrops_cons [Inhabited α] (s : IoWrapper α) (t : Nat) (ts : List Nat) :
    runDrops s (t :: ts)
      = ((runDrops (dropHandle s t).1 ts).1,
         (dropHandle s t).2 ++ (runDrops (dropHandle s t).1 ts).2) := rfl

/-- Running any valid multiset of drops on a generation-stack state subtracts
the drop counts, reverts the current generation to the new maxAlive, and fires
the callbacks of the fully drained top segment in descending order. -/
theorem runDrops_nest [Inhabited α] (k : Nat) (cb : Nat → α) (inner : Cursor) :
    ∀ (ds : List Nat), ∀ (rho : Nat → Nat),
      (∀ t ∈ ds, 1 ≤ t ∧ t ≤ k) →
      (∀ g, countTok g ds ≤ rho g) →
      runDrops (⟨inner, maxAlive rho k, genStack rho cb (maxAlive rho k)⟩ : IoWrapper α) ds
        = (⟨inner, maxAlive (fun g => rho g - countTok g ds) k,
            genStack (fun g => rho g - countTok g ds) cb
              (maxAlive (fun g => rho g - countTok g ds) k)⟩,
           (descRange (maxAlive rho k)
             (maxAlive (fun g => rho g - countTok g ds) k)).map cb) := by
  intro ds
  induction ds with
  | nil =>
    intro rho _ _
    have hrho : (fun g => rho g - countTok g []) = rho := funext fun g => by
      show rho g - 0 = rho g
      omega
    rw [hrho, descRange_nil _ _ le_rfl]
    rfl
  | cons t ts ih =>
    intro rho hmem hcount
    have ht := hmem t (List.mem_cons_self t ts)
    have hrt : rho t ≠ 0 := by
      have h1 := hcount t
      have hct : countTok t (t :: ts) = 1 + countTok t ts := by
        show (if t = t then 1 else 0) + countTok t ts = _
        rw [if_pos rfl]
      omega
    rw [runDrops_cons, dropHandle_nest k t cb rho inner ht.1 ht.2 hrt]
    simp only []
    have hcount2 : ∀ g, countTok g ts ≤ (fun x => if x = t then rho x - 1 else rho x) g := by
      intro g
      by_cases hgt : g = t
      · subst hgt
        simp only [eq_self_iff_true, if_true]
        have h1 := hcount g
        have h2 : countTok g (g :: ts) = 1 + countTok g ts := by
          show (if g = g then 1 else 0) + countTok g ts = _
          rw [if_pos rfl]
        omega
      · simp only [if_neg hgt]
        have h1 := hcount g
        have h2 : countTok g (t :: ts) = countTok g ts := by
          show (if t = g then 1 else 0) + countTok g ts = _
          rw [if_neg (fun he => hgt he.symm)]
          omega
        omega
    rw [ih (fun x => if x = t then rho x - 1 else rho x)
      (fun x hx => hmem x (List.mem_cons_of_mem t hx)) hcount2]
    have hfun : (fun g => (if g = t then rho g - 1 else rho g) - countTok g ts)
        = (fun g => rho g - countTok g (t :: ts)) := by
      funext g
      show _ = rho g - ((if t = g then 1 else 0) + countTok g ts)
      by_cases hgt : g = t
      · subst hgt
        rw [if_pos rfl, if_pos rfl]
        omega
      · rw [if_neg hgt, if_neg (fun he => hgt he.symm)]
        omega
    rw [hfun]
    have hmono1 : maxAlive (fun g => rho g - countTok g (t :: ts)) k
        ≤ maxAlive (fun x => if x = t then rho x - 1 else rho x) k := by
      refine maxAlive_mono _ _ ?_ k
      intro x hx
      by_cases hgt : x = t
      · subst hgt
        rw [if_pos rfl]
        intro h0
        exact hx (by
          have h2 : countTok x (x :: ts) = 1 + countTok x ts := by
            show (if x = x then 1 else 0) + countTok x ts = _
            rw [if_pos rfl]
          omega)
      · rw [if_neg hgt]
        intro h0
        exact hx (by omega)
    have hmono2 : maxAlive (fun x => if x = t then rho x - 1 else rho x) k
        ≤ maxAlive rho k := by
      refine maxAlive_mono _ _ ?_ k
      intro x hx
      by_cases hgt : x = t
      · subst hgt
        rw [if_pos rfl] at hx
        omega
      · rw [if_neg hgt] at hx
        exact hx
    rw [← List.map_append, descRange_append _ _ _ hmono1 hmono2]

/-- Nesting k locks from a fresh state yields the generation stack with every
count 1 and the j-th callback at generation j. -/
theorem lockN_genStack (cb : Nat → α) (inner : Cursor) :
    ∀ k, lockN (newRandFile inner (cb 0)) cb k
      = ⟨inner, k, genStack (fun _ => 1) cb k⟩ := by
  intro k
  induction k with
  | zero => rfl
  | succ k ih =>
    show (lock (lockN (newRandFile inner (cb 0)) cb k) (cb (k + 1))).2 = _
    rw [ih]
    rfl

/-- A clone sequence on a generation-stack state adds the clone counts. -/
theorem cloneSeq_genStack (cb : Nat → α) (inner : Cursor) (m ct : Nat) :
    ∀ (cs : List Nat), ∀ (rho : Nat → Nat), (∀ t ∈ cs, t ≤ m) →
      cloneSeq (⟨inner, ct, genStack rho cb m⟩ : IoWrapper α) cs
        = ⟨inner, ct, genStack (fun g => rho g + countTok g cs) cb m⟩ := by
  intro cs
  induction cs with
  | nil =>
    intro rho _
    have hrho : (fun g => rho g + countTok g []) = rho := funext fun g => by
      show rho g + 0 = rho g
      omega
    rw [hrho]
    rfl
  | cons t ts ih =>
    intro rho hmem
    show cloneSeq (cloneHandle (⟨inner, ct, genStack rho cb m⟩ : IoWrapper α) t) ts = _
    have hclone : cloneHandle (⟨inner, ct, genStack rho cb m⟩ : IoWrapper α) t
        = ⟨inner, ct, genStack (fun x => if x = t then rho x + 1 else rho x) cb m⟩ := by
      simp only [cloneHandle]
      rw [modifyCount_genStack rho cb m t (fun c => c + 1) (hmem t (List.mem_cons_self t ts))]
    rw [hclone, ih (fun x => if x = t then rho x + 1 else rho x)
      (fun x hx => hmem x (List.mem_cons_of_mem t hx))]
    have hfun : (fun g => (if g = t then rho g + 1 else rho g) + countTok g ts)
        = (fun g => rho g + countTok g (t :: ts)) := by
      funext g
      show _ = rho g + ((if t = g then 1 else 0) + countTok g ts)
      by_cases hgt : g = t
      · subst hgt
        rw [if_pos rfl, if_pos rfl]
        omega
      · rw [if_neg hgt, if_neg (fun he => hgt he.symm)]
        omega
    rw [hfun]

/-- maxAlive is the top generation when the top count is nonzero. -/
theorem maxAlive_top (rho : Nat → Nat) (k : Nat)
    (h : k = 0 ∨ rho k ≠ 0) : maxAlive rho k = k := by
  cases k with
  | zero => rfl
  | succ k2 =>
    rcases h with h | h
    · omega
    · simp only [maxAlive, if_neg h]

/-- Claim C2: nest k leases from a fresh state, clone their handles in any
way, then drop all handles and clones of the k leased generations in any
order: the k callbacks fire in strict innermost-to-outermost order, the state
reverts exactly to the fresh state (so generation 0 is current again), and as
long as some leased generation still has an outstanding handle the current
generation stays above the base. -/
theorem c2_nested_lifo_release [Inhabited α] (k : Nat) (cb : Nat → α) (inner : Cursor)
    (cs ds : List Nat)
    (hcs : ∀ t ∈ cs, 1 ≤ t ∧ t ≤ k)
    (hds : ∀ t ∈ ds, 1 ≤ t ∧ t ≤ k)
    (hcount : ∀ g, 1 ≤ g → g ≤ k → countTok g ds = 1 + countTok g cs) :
    runDrops (cloneSeq (lockN (newRandFile inner (cb 0)) cb k) cs) ds
      = (newRandFile inner (cb 0), (descRange k 0).map cb)
    ∧ (∀ ds1 ds2, ds = ds1 ++ ds2 →
        (∃ g, 1 ≤ g ∧ g ≤ k ∧ countTok g ds1 < countTok g ds) →
        0 < (runDrops (cloneSeq (lockN (newRandFile inner (cb 0)) cb k) cs) ds1).1.current_token) := by
  have hsetup : cloneSeq (lockN (newRandFile inner (cb 0)) cb k) cs
      = ⟨inner, k, genStack (fun g => 1 + countTok g cs) cb k⟩ := by
    rw [lockN_genStack cb inner k,
      cloneSeq_genStack cb inner k k cs (fun _ => 1) (fun t htm => (hcs t htm).2)]
  have hM : maxAlive (fun g => 1 + countTok g cs) k = k :=
    maxAlive_top _ k (by
      cases k with
      | zero => exact Or.inl rfl
      | succ k2 => exact Or.inr (by omega))
  have hcountle : ∀ g, countTok g ds ≤ 1 + countTok g cs := by
    intro g
    by_cases hg1 : 1 ≤ g ∧ g ≤ k
    · rw [hcount g hg1.1 hg1.2]
    · have hz : countTok g ds = 0 := countTok_zero g ds (by
        intro t htm he
        exact hg1 (he ▸ ⟨(hds t htm).1, (hds t htm).2⟩))
      omega
  have hrun := runDrops_nest k cb inner ds (fun g => 1 + countTok g cs) hds hcountle
  rw [hM] at hrun
  have hzero : maxAlive (fun g => (1 + countTok g cs) - countTok g ds) k = 0 :=
    maxAlive_zero_all _ k (by
      intro g h1 h2
      rw [hcount g h1 h2]
      omega)
  rw [hzero] at hrun
  constructor
  · rw [hsetup, hrun]
    have hbase : ((1 + countTok 0 cs) - countTok 0 ds) = 1 := by
      have hc1 : countTok 0 cs = 0 := countTok_zero 0 cs (by
        intro t htm he
        have := (hcs t htm).1
        omega)
      have hc2 : countTok 0 ds = 0 := countTok_zero 0 ds (by
        intro t htm he
        have := (hds t htm).1
        omega)
      omega
    have hstack : genStack (fun g => (1 + countTok g cs) - countTok g ds) cb 0
        = [(1, cb 0)] := by
      show [((1 + countTok 0 cs) - countTok 0 ds, cb 0)] = [(1, cb 0)]
      rw [hbase]
    rw [hstack]
    rfl
  · intro ds1 ds2 hsplit hex
    obtain ⟨g, hg1, hgk, hlt⟩ := hex
    have hds1 : ∀ t ∈ ds1, 1 ≤ t ∧ t ≤ k := by
      intro t htm
      exact hds t (hsplit ▸ List.mem_append_left ds2 htm)
    have hcount1 : ∀ g2, countTok g2 ds1 ≤ 1 + countTok g2 cs := by
      intro g2
      have hle : countTok g2 ds1 ≤ countTok g2 ds := by
        rw [hsplit, countTok_append]
        omega
      exact le_trans hle (hcountle g2)
    have hrun1 := runDrops_nest k cb inner ds1 (fun g2 => 1 + countTok g2 cs) hds1 hcount1
    rw [hM] at hrun1
    rw [hsetup, hrun1]
    show 0 < maxAlive (fun g2 => (1 + countTok g2 cs) - countTok g2 ds1) k
    have hglive : (1 + countTok g cs) - countTok g ds1 ≠ 0 := by
      have := hcount g hg1 hgk
      omega
    have := maxAlive_mem (fun g2 => (1 + countTok g2 cs) - countTok g2 ds1) k g hg1 hgk hglive
    omega

/-- Witness for claim C2: two nested leases, one extra clone of generation 1,
dropped in the order 1, 2, 1: callbacks fire as 2 then 1 and the fresh state
returns, with the base generation current only at the very end. -/
theorem c2_nested_lifo_release_witness :
    runDrops (cloneSeq (lockN (newRandFile ⟨[], 0⟩ (0 : Nat)) (fun g => g) 2) [1]) [1, 2, 1]
      = (newRandFile ⟨[], 0⟩ 0, [2, 1])
    ∧ (∀ ds1 ds2, ([1, 2, 1] : List Nat) = ds1 ++ ds2 →
        (∃ g, 1 ≤ g ∧ g ≤ 2 ∧ countTok g ds1 < countTok g [1, 2, 1]) →
        0 < (runDrops (cloneSeq (lockN (newRandFile ⟨[], 0⟩ (0 : Nat)) (fun g => g) 2) [1])
          ds1).1.current_token) :=
  c2_nested_lifo_release 2 (fun g => g) ⟨[], 0⟩ [1] [1, 2, 1]
    (by intro t htm; simp at htm; omega)
    (by intro t htm; simp at htm; rcases htm with h | h <;> omega)
    (by intro g h1 h2; interval_cases g <;> rfl)

end RandFile
